import Mathlib

/-!
Verification of the XML-to-Urdu translation script.

The Python source (`translate-script.py`) is shallowly embedded here:
  * `clean_text`, `pyStrip` model the string normalization (`str.strip`,
    `str.replace` with the single-character pattern `…`);
  * `Elem` models an `xml.etree.ElementTree` element (tag, ordered
    attribute list, optional text, optional tail, children);
  * `collect_translatable_text` models the collector
    (`collect_translatable_text` / inner `collect_from_element`);
  * `batch_translate` models the batched translator adapter; the external
    `googletrans` call is an oracle parameter `tr` returning `none` when
    the Python call would raise;
  * `setSlot` / `applyTranslations` model the writer loop that assigns
    `element.text`, `element.tail` or `element.attrib[attr_name]`;
  * `translate_xml_to_urdu` models the pipeline (file I/O, parsing and
    pretty-printing abstracted away: the parsed document, the translator
    oracle and the current time are parameters);
  * `main` models the CLI argument checking.
-/

namespace UrduXlate

/-! ### String helpers (Python `str` operations, over the char list) -/

/-- Python whitespace for `str.strip` (ASCII whitespace; the inputs of
interest contain no exotic Unicode spaces). -/
def pySpace (c : Char) : Bool :=
  c = ' ' || c = '\t' || c = '\n' || c = '\r' || c = '\x0b' || c = '\x0c'

/-- `str.strip`: drop leading and trailing whitespace characters. -/
def stripChars (l : List Char) : List Char :=
  ((l.dropWhile pySpace).reverse.dropWhile pySpace).reverse

/-- `s.strip()` on a Lean string. -/
def pyStrip (s : String) : String := ⟨stripChars s.data⟩

/-- `text.replace('…', '...')` for the single-character pattern `…`:
each occurrence expands to three dots. -/
def cleanChars : List Char → List Char
  | [] => []
  | c :: cs => if c = '…' then '.' :: '.' :: '.' :: cleanChars cs else c :: cleanChars cs

/-- `clean_text` from the source: replace `…` by `...` (the Python
`if text:` truthiness guard is the identity on the empty string). -/
def clean_text (s : String) : String := ⟨cleanChars s.data⟩

/-- `c in s` for a single character `c` (Python substring test). -/
def hasChar (s : String) (c : Char) : Bool := s.data.contains c

/-! ### The document model -/

/-- One `xml.etree.ElementTree` element: tag, ordered attribute mapping,
optional text, optional tail, ordered children. -/
inductive Elem : Type where
  | mk (tag : String) (attrib : List (String × String))
       (text tail : Option String) (children : List Elem)

def Elem.tag : Elem → String
  | .mk t _ _ _ _ => t

def Elem.attrib : Elem → List (String × String)
  | .mk _ a _ _ _ => a

def Elem.text : Elem → Option String
  | .mk _ _ x _ _ => x

def Elem.tail : Elem → Option String
  | .mk _ _ _ x _ => x

def Elem.children : Elem → List Elem
  | .mk _ _ _ _ c => c

/-- One collected tuple `(text_to_translate, element_reference, slot)`.
The Python code stores an object reference to the element; here the
element is addressed by its path (child indices) from the root, which
identifies the same node since each node occurs once in the tree. -/
structure TUnit where
  src : String
  path : List Nat
  slot : String
deriving DecidableEq, Repr

/-- The filter on element text and tail:
`elem.text and elem.text.strip() and '%' not in elem.text`. -/
def textCond (t : String) : Bool :=
  (t != "") && (pyStrip t != "") && !(hasChar t '%')

/-- `['name', 'id', 'identifier']` from the source. -/
def excludedAttrs : List String := ["name", "id", "identifier"]

/-- The filter on attributes: `attr_value and attr_value.strip() and
attr_name not in ['name','id','identifier'] and '%' not in attr_value`. -/
def attrCond (n v : String) : Bool :=
  (v != "") && (pyStrip v != "") && !(excludedAttrs.contains n) && !(hasChar v '%')

/-- The unit contributed by the element's text (slot `'text'`) or tail
(slot `'tail'`): `clean_text(elem.text.strip())` when the filter passes. -/
def textUnits (p : List Nat) (sl : String) (o : Option String) : List TUnit :=
  match o with
  | some t => if textCond t then [⟨clean_text (pyStrip t), p, sl⟩] else []
  | none => []

/-- The units contributed by the attribute loop, in attribute order:
`clean_text(attr_value.strip())` with the attribute's own name as slot. -/
def attrUnits (p : List Nat) (l : List (String × String)) : List TUnit :=
  l.filterMap (fun nv =>
    if attrCond nv.1 nv.2 then some ⟨clean_text (pyStrip nv.2), p, nv.1⟩ else none)

/-- The units contributed by one element itself (its text, its tail, its
attributes — in the order of the Python code), before recursing into
children. -/
def localUnits (p : List Nat) (e : Elem) : List TUnit :=
  textUnits p "text" e.text ++ textUnits p "tail" e.tail ++ attrUnits p e.attrib

mutual

/-- `collect_from_element` from the source: the element's own candidates,
then the children recursively. `p` is the address of `e` in the root. -/
def collect_from_element (p : List Nat) : Elem → List TUnit
  | .mk tag attrib text tail children =>
      localUnits p (.mk tag attrib text tail children) ++ collectChildren p 0 children

/-- The `for child in elem:` loop; `i` is the index of the next child. -/
def collectChildren (p : List Nat) (i : Nat) : List Elem → List TUnit
  | [] => []
  | c :: cs => collect_from_element (p ++ [i]) c ++ collectChildren p (i + 1) cs

end

/-- `collect_translatable_text(root)`. -/
def collect_translatable_text (root : Elem) : List TUnit :=
  collect_from_element [] root

/-! ### The translator adapter -/

/-- `k` further iterations of the `for i in range(0, len(texts),
batch_size)` loop, each taking the slice `texts[i:i+batch_size]`. -/
def chunkBatchesGo (B : Nat) : Nat → List String → List (List String)
  | 0, _ => []
  | k + 1, l => l.take B :: chunkBatchesGo B k (l.drop B)

/-- The batches `texts[i:i+batch_size]` for `i in range(0, len(texts),
batch_size)`: exactly `⌈len(texts)/batch_size⌉` slices. Requires a
positive batch size (Python's `range` raises on step 0; the source uses
100). -/
def chunkBatches (B : Nat) (hB : 0 < B) (texts : List String) :
    List (List String) :=
  chunkBatchesGo B ((texts.length + B - 1) / B) texts

/-- The body of the `for` loop of `batch_translate` over the batch list.
`tr b = some r` models a successful `translator.translate(b, ...)` call
returning one result per input; `tr b = none` models the call raising.
Returns the concatenated translations together with the number of
`time.sleep(1)` calls executed (the sleep sits inside the `try`, after a
successful call; an exception jumps to `except` before it). -/
def processBatches (tr : List String → Option (List String)) :
    List (List String) → List String × Nat
  | [] => ([], 0)
  | b :: bs =>
    let rest := processBatches tr bs
    match tr b with
    | some r => (r ++ rest.1, rest.2 + 1)
    | none => (b ++ rest.1, rest.2)

/-- `batch_translate(texts, translator, batch_size)`: first component the
returned translation list, second the number of sleeps performed. -/
def batch_translate (tr : List String → Option (List String)) (B : Nat)
    (hB : 0 < B) (texts : List String) : List String × Nat :=
  processBatches tr (chunkBatches B hB texts)

/-! ### The writer -/

/-- Dictionary lookup in the ordered attribute list. -/
def attrLookup : List (String × String) → String → Option String
  | [], _ => none
  | (k, w) :: rest, n => if k = n then some w else attrLookup rest n

/-- `elem.attrib[attr_name] = v`: replace the value of an existing key in
place (append if absent — the writer only ever hits existing keys). -/
def setAttr : List (String × String) → String → String → List (String × String)
  | [], n, v => [(n, v)]
  | (k, w) :: rest, n, v =>
    if k = n then (n, v) :: rest else (k, w) :: setAttr rest n v

/-- Replace the `i`-th element of a child list by `f` of it. -/
def updateChild : List Elem → Nat → (Elem → Elem) → List Elem
  | [], _, _ => []
  | c :: cs, 0, f => f c :: cs
  | c :: cs, i + 1, f => c :: updateChild cs i f

/-- One iteration of the writer loop on the node at `p`:
`if attr_name == 'text': element.text = v elif attr_name == 'tail':
element.tail = v else: element.attrib[attr_name] = v`. -/
def setSlot : Elem → List Nat → String → String → Elem
  | .mk tag attrib text tail children, [], s, v =>
    if s = "text" then .mk tag attrib (some v) tail children
    else if s = "tail" then .mk tag attrib text (some v) children
    else .mk tag (setAttr attrib s v) text tail children
  | .mk tag attrib text tail children, i :: rest, s, v =>
    .mk tag attrib text tail (updateChild children i (fun c => setSlot c rest s v))

/-- The node addressed by a path of child indices. -/
def nodeAt : Elem → List Nat → Option Elem
  | e, [] => some e
  | e, i :: rest =>
    match e.children[i]? with
    | some c => nodeAt c rest
    | none => none

/-- Read the field a slot designates, mirroring the writer's branching:
slot `text` is the node's text, slot `tail` its tail, any other slot the
attribute of that name. -/
def readSlot (e : Elem) (p : List Nat) (s : String) : Option String :=
  (nodeAt e p).bind fun m =>
    if s = "text" then m.text else if s = "tail" then m.tail
    else attrLookup m.attrib s

/-- The value of the attribute literally named `n` at path `p` (unlike
`readSlot`, never redirected to text or tail content). -/
def attrAt (e : Elem) (p : List Nat) (n : String) : Option String :=
  (nodeAt e p).bind fun m => attrLookup m.attrib n

/-- The writer loop: `for (original_text, element, attr_name),
translated_text in zip(translations_needed, translated_texts): ...`. -/
def applyTranslations (root : Elem) (pairs : List (TUnit × String)) : Elem :=
  pairs.foldl (fun acc uv => setSlot acc uv.1.path uv.1.slot uv.2) root

/-! ### Structure (everything except text, tail and attribute values) -/

/-- The structural skeleton of an element: tag name, attribute names in
order, skeletons of the children in order. -/
inductive ElemShape : Type where
  | mk (tag : String) (attrKeys : List String) (children : List ElemShape)

mutual

def shapeOf : Elem → ElemShape
  | .mk tag attrib _ _ children => .mk tag (attrib.map Prod.fst) (shapeList children)

def shapeList : List Elem → List ElemShape
  | [] => []
  | c :: cs => shapeOf c :: shapeList cs

end

mutual

/-- Number of nodes of the document. -/
def nodeCount : Elem → Nat
  | .mk _ _ _ _ children => 1 + nodeCountList children

def nodeCountList : List Elem → Nat
  | [] => 0
  | c :: cs => nodeCount c + nodeCountList cs

end

/-! ### The pipeline and the CLI -/

/-- Last index at which `c` occurs (Python `str.rfind`, as an `Option`). -/
def lastIndexOf : List Char → Char → Option Nat
  | [], _ => none
  | x :: xs, c =>
    match lastIndexOf xs c with
    | some i => some (i + 1)
    | none => if x = c then some 0 else none

/-- `os.path.splitext(p)[0]` (posix rules: split at the right-most dot of
the base name unless the base name consists only of leading dots up to
that point). -/
def splitextRoot (s : String) : String :=
  match lastIndexOf s.data '.' with
  | none => s
  | some di =>
    let fstart : Nat :=
      match lastIndexOf s.data '/' with
      | some j => j + 1
      | none => 0
    if fstart ≤ di ∧ ((s.data.drop fstart).take (di - fstart)).any (fun c => c ≠ '.') then
      ⟨s.data.take di⟩
    else s

/-- The synthesized default output path:
`f"{os.path.splitext(input_file)[0]}_urdu_{datetime.now().strftime('%Y%m%d_%H%M%S')}.xml"`.
The wall-clock timestamp string is the parameter `now`. -/
def defaultOutputFile (input_file : String) (now : String) : String :=
  splitextRoot input_file ++ "_urdu_" ++ now ++ ".xml"

/-- Observable outcome of one `translate_xml_to_urdu` run: the output
path it reports, the document written to that path (`none` when the run
returns without creating any file), and whether the
"No translatable text found" message was printed. -/
structure RunResult where
  outputFile : String
  written : Option Elem
  reportedNoText : Bool

/-- `translate_xml_to_urdu(input_file, output_file)`, with the parsed
document `root`, the translator oracle `tr` and the current time `now`
as parameters (file reading/parsing and serialization abstracted away;
the pretty-printing step rewrites the same document). When the collector
finds nothing the function returns the output path early, before any
write, so `written = none` in that case. -/
def translate_xml_to_urdu (tr : List String → Option (List String)) (B : Nat)
    (hB : 0 < B) (input_file : String) (output_file? : Option String)
    (now : String) (root : Elem) : RunResult :=
  let output_file := output_file?.getD (defaultOutputFile input_file now)
  let translations_needed := collect_translatable_text root
  if translations_needed.isEmpty then
    ⟨output_file, none, true⟩
  else
    let texts_to_translate := translations_needed.map TUnit.src
    let translated_texts := (batch_translate tr B hB texts_to_translate).1
    ⟨output_file, some (applyTranslations root (translations_needed.zip translated_texts)), false⟩

/-- `s.lower()`. -/
def pyLower (s : String) : String := ⟨s.data.map Char.toLower⟩

/-- `s.endswith(suf)`. -/
def strEndsWith (s suf : String) : Bool :=
  s.data.reverse.take suf.data.length == suf.data.reverse

/-- What `main` does before any processing: each `exit1` constructor is a
`sys.exit(1)` after printing the corresponding message, with no
processing attempted; `run` proceeds into `translate_xml_to_urdu`. -/
inductive CliOutcome where
  | usageExit1
  | missingFileExit1
  | notXmlExit1
  | run (input_file : String) (output_file : Option String)
deriving DecidableEq, Repr

/-- The process exit status the outcome forces (`none`: the run
continues into processing). -/
def CliOutcome.exitCode : CliOutcome → Option Nat
  | .run _ _ => none
  | _ => some 1

/-- Whether the outcome reaches `translate_xml_to_urdu`. -/
def CliOutcome.attemptsProcessing : CliOutcome → Bool
  | .run _ _ => true
  | _ => false

/-- `main()` from the source: `argv` is the full `sys.argv` (script name
first); `fileExists` models `os.path.exists`. -/
def main (argv : List String) (fileExists : String → Bool) : CliOutcome :=
  match argv with
  | _prog :: input_file :: rest =>
    if !fileExists input_file then .missingFileExit1
    else if !strEndsWith (pyLower input_file) ".xml" then .notXmlExit1
    else .run input_file rest.head?
  | _ => .usageExit1

/-! ### Lemmas: characters and strings -/

theorem cleanChars_eq_nil_iff (l : List Char) : cleanChars l = [] ↔ l = [] := by
  cases l with
  | nil => simp [cleanChars]
  | cons c cs =>
    simp only [cleanChars]
    constructor
    · intro h
      by_cases hc : c = '…' <;> simp [hc] at h
    · intro h
      exact absurd h (by simp)

theorem mem_cleanChars_iff {c : Char} (hdot : c ≠ '.') (hell : c ≠ '…')
    (l : List Char) : c ∈ cleanChars l ↔ c ∈ l := by
  induction l with
  | nil => simp [cleanChars]
  | cons x xs ih =>
    by_cases hx : x = '…'
    · simp [cleanChars, hx, hdot, hell, ih]
    · simp [cleanChars, hx, ih]

theorem mem_of_mem_dropWhile {c : Char} {p : Char → Bool} {l : List Char}
    (h : c ∈ l.dropWhile p) : c ∈ l :=
  (List.dropWhile_sublist p).mem h

theorem mem_dropWhile_of_mem {c : Char} {p : Char → Bool} {l : List Char}
    (hc : p c = false) (h : c ∈ l) : c ∈ l.dropWhile p := by
  induction l with
  | nil => exact absurd h (by simp)
  | cons x xs ih =>
    by_cases hx : p x
    · rcases List.mem_cons.mp h with rfl | hmem
      · exact absurd hx (by simp [hc])
      · simpa [List.dropWhile, hx] using ih hmem
    · simpa [List.dropWhile, hx] using h

theorem mem_of_mem_stripChars {c : Char} {l : List Char}
    (h : c ∈ stripChars l) : c ∈ l := by
  unfold stripChars at h
  have h1 := mem_of_mem_dropWhile (List.mem_reverse.mp h)
  exact mem_of_mem_dropWhile (List.mem_reverse.mp h1)

theorem mem_stripChars_of_mem {c : Char} {l : List Char}
    (hc : pySpace c = false) (h : c ∈ l) : c ∈ stripChars l := by
  unfold stripChars
  rw [List.mem_reverse]
  exact mem_dropWhile_of_mem hc
    (List.mem_reverse.mpr (mem_dropWhile_of_mem hc h))

theorem string_eq_empty_iff (l : List Char) : String.mk l = "" ↔ l = [] := by
  constructor
  · intro h
    have := congrArg String.data h
    simpa using this
  · intro h
    subst h
    rfl

theorem string_data_eq_nil_iff (s : String) : s.data = [] ↔ s = "" := by
  cases s with
  | mk d => exact (string_eq_empty_iff d).symm

theorem clean_text_eq_empty_iff (s : String) : clean_text s = "" ↔ s = "" := by
  unfold clean_text
  rw [string_eq_empty_iff, cleanChars_eq_nil_iff, string_data_eq_nil_iff]

theorem pct_not_space : pySpace '%' = false := by decide

theorem pct_mem_of_hasChar {s : String} (h : hasChar s '%' = true) :
    '%' ∈ s.data := List.elem_iff.mp h

theorem hasChar_of_pct_mem {s : String} (h : '%' ∈ s.data) :
    hasChar s '%' = true := List.elem_iff.mpr h

/-- A string whose strip is nonempty is itself nonempty. -/
theorem ne_empty_of_pyStrip_ne_empty {s : String} (h : pyStrip s ≠ "") :
    s ≠ "" := by
  intro hs
  apply h
  rw [hs]
  rfl

/-- `%` occurs in a string iff it occurs in its strip (strip removes only
whitespace). -/
theorem pct_mem_strip_iff (s : String) :
    '%' ∈ (pyStrip s).data ↔ '%' ∈ s.data := by
  constructor
  · intro h
    exact mem_of_mem_stripChars h
  · intro h
    exact mem_stripChars_of_mem pct_not_space h

/-- `%` survives `clean_text` in both directions. -/
theorem pct_mem_clean_iff (s : String) :
    '%' ∈ (clean_text s).data ↔ '%' ∈ s.data :=
  mem_cleanChars_iff (by decide) (by decide) s.data

/-! ### Lemmas: `updateChild`, `attrLookup`, `setAttr` -/

theorem updateChild_getElem?_ne (l : List Elem) (i j : Nat) (f : Elem → Elem)
    (h : j ≠ i) : (updateChild l i f)[j]? = l[j]? := by
  induction l generalizing i j with
  | nil => simp [updateChild]
  | cons c cs ih =>
    cases i with
    | zero =>
      cases j with
      | zero => exact absurd rfl h
      | succ j => simp [updateChild]
    | succ i =>
      cases j with
      | zero => simp [updateChild]
      | succ j => simpa [updateChild] using ih i j (by omega)

theorem updateChild_getElem?_eq (l : List Elem) (i : Nat) (f : Elem → Elem) :
    (updateChild l i f)[i]? = (l[i]?).map f := by
  induction l generalizing i with
  | nil => simp [updateChild]
  | cons c cs ih =>
    cases i with
    | zero => simp [updateChild]
    | succ i => simpa [updateChild] using ih i

theorem updateChild_length (l : List Elem) (i : Nat) (f : Elem → Elem) :
    (updateChild l i f).length = l.length := by
  induction l generalizing i with
  | nil => rfl
  | cons c cs ih =>
    cases i with
    | zero => simp [updateChild]
    | succ i => simpa [updateChild] using ih i

theorem attrLookup_setAttr_eq (l : List (String × String)) (n v : String) :
    attrLookup (setAttr l n v) n = some v := by
  induction l with
  | nil => simp [setAttr, attrLookup]
  | cons kw rest ih =>
    by_cases hk : kw.1 = n
    · simp [setAttr, attrLookup, hk]
    · simpa [setAttr, attrLookup, hk] using ih

theorem attrLookup_setAttr_ne (l : List (String × String)) (n v m : String)
    (h : m ≠ n) : attrLookup (setAttr l n v) m = attrLookup l m := by
  have hnm : n ≠ m := Ne.symm h
  induction l with
  | nil => simp [setAttr, attrLookup, hnm]
  | cons kw rest ih =>
    by_cases hk : kw.1 = n
    · simp [setAttr, attrLookup, hk, hnm]
    · by_cases hm : kw.1 = m <;> simp [setAttr, attrLookup, hk, hm, hnm, h, ih]

theorem setAttr_keys_of_mem (l : List (String × String)) (n v : String)
    (h : n ∈ l.map Prod.fst) :
    (setAttr l n v).map Prod.fst = l.map Prod.fst := by
  induction l with
  | nil => exact absurd h (by simp)
  | cons kw rest ih =>
    by_cases hk : kw.1 = n
    · simp [setAttr, hk]
    · have hmem : n ∈ rest.map Prod.fst := by
        rcases List.mem_cons.mp h with hh | hh
        · exact absurd hh.symm hk
        · exact hh
      simp [setAttr, hk, ih hmem]

theorem attrLookup_isSome_iff (l : List (String × String)) (n : String) :
    (attrLookup l n).isSome = true ↔ n ∈ l.map Prod.fst := by
  induction l with
  | nil => simp [attrLookup]
  | cons kw rest ih =>
    by_cases hk : kw.1 = n
    · simp [attrLookup, hk]
    · have hk2 : ¬ n = kw.1 := fun hh => hk hh.symm
      simpa [attrLookup, hk, hk2] using ih

theorem attrLookup_of_mem (l : List (String × String)) (n v : String)
    (h : (n, v) ∈ l) : (attrLookup l n).isSome = true := by
  rw [attrLookup_isSome_iff]
  exact List.mem_map.mpr ⟨(n, v), h, rfl⟩

/-! ### Lemmas: `nodeAt`, `setSlot`, `readSlot`, `attrAt` -/

theorem nodeAt_cons (e : Elem) (i : Nat) (q : List Nat) :
    nodeAt e (i :: q) =
      match e.children[i]? with
      | some c => nodeAt c q
      | none => none := rfl

theorem readSlot_nil (e : Elem) (s : String) :
    readSlot e [] s =
      (if s = "text" then e.text else if s = "tail" then e.tail
       else attrLookup e.attrib s) := by
  simp [readSlot, nodeAt]

theorem readSlot_cons (e : Elem) (i : Nat) (q : List Nat) (s : String) :
    readSlot e (i :: q) s =
      (match e.children[i]? with
       | some c => readSlot c q s
       | none => none) := by
  cases h : e.children[i]? <;> simp [readSlot, nodeAt_cons, h]

theorem attrAt_nil (e : Elem) (n : String) :
    attrAt e [] n = attrLookup e.attrib n := by
  simp [attrAt, nodeAt]

theorem attrAt_cons (e : Elem) (i : Nat) (q : List Nat) (n : String) :
    attrAt e (i :: q) n =
      (match e.children[i]? with
       | some c => attrAt c q n
       | none => none) := by
  cases h : e.children[i]? <;> simp [attrAt, nodeAt_cons, h]

theorem setSlot_nil_children (e : Elem) (s v : String) :
    (setSlot e [] s v).children = e.children := by
  cases e
  by_cases h1 : s = "text" <;> by_cases h2 : s = "tail" <;>
    simp [setSlot, h1, h2, Elem.children]

theorem setSlot_cons (tag : String) (attrib : List (String × String))
    (text tail : Option String) (children : List Elem) (i : Nat)
    (rest : List Nat) (s v : String) :
    setSlot (.mk tag attrib text tail children) (i :: rest) s v =
      .mk tag attrib text tail
        (updateChild children i (fun c => setSlot c rest s v)) := rfl

/-- Writing slot `(p, s)` leaves every other slot `(q, s')` unchanged. -/
theorem readSlot_setSlot_frame (p : List Nat) (e : Elem) (q : List Nat)
    (s s' v : String) (h : ¬(p = q ∧ s = s')) :
    readSlot (setSlot e p s v) q s' = readSlot e q s' := by
  induction p generalizing e q with
  | nil =>
    cases q with
    | nil =>
      have hss : s ≠ s' := fun hc => h ⟨rfl, hc⟩
      cases e with
      | mk t a tx tl ch =>
        by_cases h1 : s = "text"
        · subst h1
          have h2 : s' ≠ "text" := fun hc => hss hc.symm
          simp [setSlot, readSlot_nil, Elem.text, Elem.tail, Elem.attrib, h2]
        · by_cases h2 : s = "tail"
          · subst h2
            have h3 : s' ≠ "tail" := fun hc => hss hc.symm
            simp [setSlot, readSlot_nil, Elem.text, Elem.tail, Elem.attrib, h1, h3]
          · simp only [setSlot, if_neg h1, if_neg h2, readSlot_nil,
              Elem.text, Elem.tail, Elem.attrib]
            by_cases h3 : s' = "text"
            · simp [h3]
            · by_cases h4 : s' = "tail"
              · simp [h3, h4]
              · simp [h3, h4, attrLookup_setAttr_ne _ _ _ _ hss.symm]
    | cons j q =>
      rw [readSlot_cons, readSlot_cons, setSlot_nil_children]
  | cons i p ih =>
    cases q with
    | nil =>
      cases e with
      | mk t a tx tl ch =>
        simp [setSlot_cons, readSlot_nil, Elem.text, Elem.tail, Elem.attrib]
    | cons j q =>
      cases e with
      | mk t a tx tl ch =>
        rw [setSlot_cons, readSlot_cons, readSlot_cons]
        simp only [Elem.children]
        by_cases hij : j = i
        · subst hij
          rw [updateChild_getElem?_eq]
          cases hc : ch[j]? with
          | none => simp
          | some c =>
            simp only [Option.map_some]
            exact ih c q (fun hc2 => h ⟨by rw [hc2.1], hc2.2⟩)
        · rw [updateChild_getElem?_ne _ _ _ _ hij]

/-- Writing slot `(p, s)` hits: afterwards the slot reads the written
value (provided the path addresses a node). -/
theorem readSlot_setSlot_hit (p : List Nat) (e : Elem) (s v : String)
    (hp : (nodeAt e p).isSome = true) :
    readSlot (setSlot e p s v) p s = some v := by
  induction p generalizing e with
  | nil =>
    cases e with
    | mk t a tx tl ch =>
      by_cases h1 : s = "text"
      · simp [setSlot, readSlot_nil, Elem.text, h1]
      · by_cases h2 : s = "tail"
        · simp [setSlot, readSlot_nil, Elem.tail, h1, h2]
        · simp [setSlot, readSlot_nil, Elem.attrib, h1, h2,
            attrLookup_setAttr_eq]
  | cons i p ih =>
    cases e with
    | mk t a tx tl ch =>
      rw [nodeAt_cons] at hp
      cases hc : ch[i]? with
      | none => simp [Elem.children, hc] at hp
      | some c =>
        simp only [Elem.children, hc] at hp
        rw [setSlot_cons, readSlot_cons]
        simp only [Elem.children, updateChild_getElem?_eq, hc, Option.map_some]
        exact ih c hp

/-- No write ever touches an attribute literally named `text` or `tail`:
a slot of that name is routed to the text or tail field, and an
attribute-slot write changes only the attribute of the slot's own name. -/
theorem attrAt_setSlot_frame (p : List Nat) (e : Elem) (q : List Nat)
    (s n v : String) (h : s = "text" ∨ s = "tail" ∨ n ≠ s) :
    attrAt (setSlot e p s v) q n = attrAt e q n := by
  induction p generalizing e q with
  | nil =>
    cases q with
    | nil =>
      cases e with
      | mk t a tx tl ch =>
        by_cases h1 : s = "text"
        · simp [setSlot, attrAt_nil, Elem.attrib, h1]
        · by_cases h2 : s = "tail"
          · simp [setSlot, attrAt_nil, Elem.attrib, h1, h2]
          · have hn : n ≠ s := by
              rcases h with h | h | h
              · exact absurd h h1
              · exact absurd h h2
              · exact h
            simp [setSlot, attrAt_nil, Elem.attrib, h1, h2,
              attrLookup_setAttr_ne _ _ _ _ hn]
    | cons j q =>
      rw [attrAt_cons, attrAt_cons, setSlot_nil_children]
  | cons i p ih =>
    cases q with
    | nil =>
      cases e with
      | mk t a tx tl ch =>
        simp [setSlot_cons, attrAt_nil, Elem.attrib]
    | cons j q =>
      cases e with
      | mk t a tx tl ch =>
        rw [setSlot_cons, attrAt_cons, attrAt_cons]
        simp only [Elem.children]
        by_cases hij : j = i
        · subst hij
          rw [updateChild_getElem?_eq]
          cases hc : ch[j]? with
          | none => simp
          | some c =>
            simp only [Option.map_some]
            exact ih c q
        · rw [updateChild_getElem?_ne _ _ _ _ hij]

/-! ### Lemmas: shapes -/

def ElemShape.tag : ElemShape → String
  | .mk t _ _ => t

def ElemShape.attrKeys : ElemShape → List String
  | .mk _ k _ => k

def ElemShape.children : ElemShape → List ElemShape
  | .mk _ _ c => c

mutual

def shapeCount : ElemShape → Nat
  | .mk _ _ children => 1 + shapeCountList children

def shapeCountList : List ElemShape → Nat
  | [] => 0
  | c :: cs => shapeCount c + shapeCountList cs

end

theorem shapeList_eq_map (l : List Elem) : shapeList l = l.map shapeOf := by
  induction l with
  | nil => rfl
  | cons c cs ih => simp [shapeList, ih]

mutual

theorem nodeCount_eq_shapeCount : ∀ e : Elem, nodeCount e = shapeCount (shapeOf e)
  | .mk t a tx tl ch => by
    rw [nodeCount, shapeOf, shapeCount, nodeCountList_eq_shapeCountList ch]

theorem nodeCountList_eq_shapeCountList :
    ∀ l : List Elem, nodeCountList l = shapeCountList (shapeList l)
  | [] => rfl
  | c :: cs => by
    rw [nodeCountList, shapeList, shapeCountList,
      nodeCount_eq_shapeCount c, nodeCountList_eq_shapeCountList cs]

end

/-- `setSlot` preserves the structural skeleton, provided an
attribute-slot write hits an existing attribute name. -/
theorem shapeOf_setSlot (p : List Nat) (e : Elem) (s v : String)
    (h : s = "text" ∨ s = "tail" ∨
      (∀ m, nodeAt e p = some m → s ∈ m.attrib.map Prod.fst)) :
    shapeOf (setSlot e p s v) = shapeOf e := by
  induction p generalizing e with
  | nil =>
    cases e with
    | mk t a tx tl ch =>
      by_cases h1 : s = "text"
      · simp [setSlot, h1, shapeOf]
      · by_cases h2 : s = "tail"
        · simp [setSlot, h1, h2, shapeOf]
        · have hmem : s ∈ a.map Prod.fst := by
            rcases h with h | h | h
            · exact absurd h h1
            · exact absurd h h2
            · simpa [nodeAt, Elem.attrib] using h _ rfl
          simp [setSlot, h1, h2, shapeOf, setAttr_keys_of_mem _ _ _ hmem]
  | cons i p ih =>
    cases e with
    | mk t a tx tl ch =>
      rw [setSlot_cons]
      simp only [shapeOf, ElemShape.mk.injEq, true_and]
      rw [shapeList_eq_map, shapeList_eq_map]
      apply List.ext_getElem?
      intro j
      rw [List.getElem?_map, List.getElem?_map]
      by_cases hij : j = i
      · subst hij
        rw [updateChild_getElem?_eq]
        cases hc : ch[j]? with
        | none => simp
        | some c =>
          simp only [Option.map_some, Option.map_map]
          have : shapeOf (setSlot c p s v) = shapeOf c := by
            apply ih
            rcases h with h | h | h
            · exact Or.inl h
            · exact Or.inr (Or.inl h)
            · refine Or.inr (Or.inr (fun m hm => h m ?_))
              rw [nodeAt_cons]
              simp [Elem.children, hc, hm]
          simp [this]
      · rw [updateChild_getElem?_ne _ _ _ _ hij]

/-- Equal skeletons have pointwise equal skeletons at every path. -/
theorem nodeAt_shape_congr (p : List Nat) (a b : Elem)
    (h : shapeOf a = shapeOf b) :
    (nodeAt a p).map shapeOf = (nodeAt b p).map shapeOf := by
  induction p generalizing a b with
  | nil => simp [nodeAt, h]
  | cons i q ih =>
    cases a with
    | mk ta aa txa tla cha =>
      cases b with
      | mk tb ab txb tlb chb =>
        simp only [shapeOf, ElemShape.mk.injEq] at h
        have hch : cha.map shapeOf = chb.map shapeOf := by
          rw [← shapeList_eq_map, ← shapeList_eq_map]
          exact h.2.2
        have hgm : (cha[i]?).map shapeOf = (chb[i]?).map shapeOf := by
          rw [← List.getElem?_map, ← List.getElem?_map, hch]
        rw [nodeAt_cons, nodeAt_cons]
        simp only [Elem.children]
        cases hca : cha[i]? with
        | none =>
          cases hcb : chb[i]? with
          | none => rfl
          | some cb => rw [hca, hcb] at hgm; simp at hgm
        | some ca =>
          cases hcb : chb[i]? with
          | none => rw [hca, hcb] at hgm; simp at hgm
          | some cb =>
            rw [hca, hcb] at hgm
            simp only [Option.map_some', Option.some.injEq] at hgm
            exact ih ca cb hgm

/-- Equal skeletons: a path addresses a node in one tree iff in the
other. -/
theorem nodeAt_isSome_congr (p : List Nat) (a b : Elem)
    (h : shapeOf a = shapeOf b) :
    (nodeAt a p).isSome = (nodeAt b p).isSome := by
  have hc := nodeAt_shape_congr p a b h
  cases ha : nodeAt a p with
  | none =>
    cases hb : nodeAt b p with
    | none => rfl
    | some mb => rw [ha, hb] at hc; simp at hc
  | some ma =>
    cases hb : nodeAt b p with
    | none => rw [ha, hb] at hc; simp at hc
    | some mb => rfl

/-- Equal skeletons: the attribute-name lists agree at every path. -/
theorem nodeAt_attrKeys_congr (p : List Nat) (a b : Elem)
    (h : shapeOf a = shapeOf b) (ma mb : Elem)
    (ha : nodeAt a p = some ma) (hb : nodeAt b p = some mb) :
    ma.attrib.map Prod.fst = mb.attrib.map Prod.fst := by
  have hc := nodeAt_shape_congr p a b h
  rw [ha, hb] at hc
  simp only [Option.map_some', Option.some.injEq] at hc
  cases ma with
  | mk t1 a1 x1 l1 c1 =>
    cases mb with
    | mk t2 a2 x2 l2 c2 =>
      simp only [shapeOf, ElemShape.mk.injEq] at hc
      simpa [Elem.attrib] using hc.2.1

/-! ### Lemmas: the collector -/

theorem mem_textUnits_iff (u : TUnit) (p : List Nat) (sl : String)
    (o : Option String) :
    u ∈ textUnits p sl o ↔
      ∃ t, o = some t ∧ textCond t = true ∧
        u = ⟨clean_text (pyStrip t), p, sl⟩ := by
  cases o with
  | none => simp [textUnits]
  | some t =>
    by_cases hc : textCond t <;> simp [textUnits, hc]

theorem mem_attrUnits_iff (u : TUnit) (p : List Nat)
    (l : List (String × String)) :
    u ∈ attrUnits p l ↔
      ∃ n v, (n, v) ∈ l ∧ attrCond n v = true ∧
        u = ⟨clean_text (pyStrip v), p, n⟩ := by
  constructor
  · intro h
    rcases List.mem_filterMap.mp h with ⟨⟨n, v⟩, hm, hv⟩
    by_cases hc : attrCond n v
    · simp only [hc, if_true] at hv
      exact ⟨n, v, hm, hc, (Option.some.injEq _ _ ▸ hv).symm⟩
    · simp [hc] at hv
  · rintro ⟨n, v, hm, hc, rfl⟩
    exact List.mem_filterMap.mpr ⟨(n, v), hm, by simp [hc]⟩

theorem mem_localUnits_iff (u : TUnit) (p : List Nat) (e : Elem) :
    u ∈ localUnits p e ↔
      (∃ t, e.text = some t ∧ textCond t = true ∧
        u = ⟨clean_text (pyStrip t), p, "text"⟩) ∨
      (∃ t, e.tail = some t ∧ textCond t = true ∧
        u = ⟨clean_text (pyStrip t), p, "tail"⟩) ∨
      (∃ n v, (n, v) ∈ e.attrib ∧ attrCond n v = true ∧
        u = ⟨clean_text (pyStrip v), p, n⟩) := by
  simp [localUnits, List.mem_append, mem_textUnits_iff, mem_attrUnits_iff,
    or_assoc]

theorem path_of_mem_localUnits {u : TUnit} {p : List Nat} {e : Elem}
    (h : u ∈ localUnits p e) : u.path = p := by
  rcases (mem_localUnits_iff u p e).mp h with ⟨t, _, _, rfl⟩ | ⟨t, _, _, rfl⟩ |
    ⟨n, v, _, _, rfl⟩ <;> rfl

mutual

/-- Every collected unit originates as a local unit of the node its path
addresses. -/
theorem mem_collect_elem : ∀ (p : List Nat) (e : Elem) (u : TUnit),
    u ∈ collect_from_element p e →
    ∃ q m, u.path = p ++ q ∧ nodeAt e q = some m ∧ u ∈ localUnits (p ++ q) m
  | p, .mk t a tx tl ch, u => by
    intro h
    rw [collect_from_element] at h
    rcases List.mem_append.mp h with hl | hr
    · exact ⟨[], .mk t a tx tl ch, by simpa using path_of_mem_localUnits hl,
        rfl, by simpa using hl⟩
    · rcases mem_collect_children p 0 ch u hr with ⟨j, c, q, m, hj, hpath, hnode, hloc⟩
      refine ⟨j :: q, m, ?_, ?_, ?_⟩
      · rw [hpath]
        simp
      · rw [nodeAt_cons]
        simp only [Elem.children]
        rw [hj]
        exact hnode
      · rw [show p ++ j :: q = (p ++ [0 + j]) ++ q by simp]
        exact hloc

theorem mem_collect_children : ∀ (p : List Nat) (i : Nat) (cs : List Elem) (u : TUnit),
    u ∈ collectChildren p i cs →
    ∃ j c q m, cs[j]? = some c ∧ u.path = (p ++ [i + j]) ++ q ∧
      nodeAt c q = some m ∧ u ∈ localUnits ((p ++ [i + j]) ++ q) m
  | p, i, [], u => by
    intro h
    rw [collectChildren] at h
    exact absurd h (by simp)
  | p, i, c :: cs, u => by
    intro h
    rw [collectChildren] at h
    rcases List.mem_append.mp h with hl | hr
    · rcases mem_collect_elem (p ++ [i]) c u hl with ⟨q, m, hpath, hnode, hloc⟩
      exact ⟨0, c, q, m, by simp, by simpa using hpath, hnode, by simpa using hloc⟩
    · rcases mem_collect_children p (i + 1) cs u hr with ⟨j, c2, q, m, hj, hpath, hnode, hloc⟩
      refine ⟨j + 1, c2, q, m, by simpa using hj, ?_, hnode, ?_⟩
      · rw [hpath]
        rw [show i + (j + 1) = i + 1 + j by omega]
      · rw [show i + (j + 1) = i + 1 + j by omega]
        exact hloc

end

/-- `collectChildren` contains everything collected below any one child. -/
theorem collectChildren_superset (cs : List Elem) (p : List Nat) :
    ∀ (i j : Nat) (c : Elem), cs[j]? = some c →
    ∀ u ∈ collect_from_element (p ++ [i + j]) c, u ∈ collectChildren p i cs := by
  induction cs with
  | nil => intro i j c hj; simp at hj
  | cons c0 cs ih =>
    intro i j c hj u hu
    rw [collectChildren]
    cases j with
    | zero =>
      simp only [List.getElem?_cons_zero, Option.some.injEq] at hj
      subst hj
      exact List.mem_append.mpr (Or.inl (by simpa using hu))
    | succ j =>
      simp only [List.getElem?_cons_succ] at hj
      refine List.mem_append.mpr (Or.inr (ih (i + 1) j c hj u ?_))
      rw [show i + 1 + j = i + (j + 1) by omega]
      exact hu

/-- Everything collected from a reachable node (with the matching path
prefix) is collected from the root. -/
theorem collect_from_nodeAt (q : List Nat) :
    ∀ (e m : Elem) (p : List Nat), nodeAt e q = some m →
    ∀ u ∈ collect_from_element (p ++ q) m, u ∈ collect_from_element p e := by
  induction q with
  | nil =>
    intro e m p hm u hu
    simp only [nodeAt, Option.some.injEq] at hm
    subst hm
    simpa using hu
  | cons i rest ih =>
    intro e m p hm u hu
    rw [nodeAt_cons] at hm
    cases hc : e.children[i]? with
    | none => rw [hc] at hm; simp at hm
    | some c =>
      rw [hc] at hm
      have hu2 : u ∈ collect_from_element (p ++ [i]) c := by
        apply ih c m (p ++ [i]) hm
        rw [show (p ++ [i]) ++ rest = p ++ i :: rest by simp]
        exact hu
      cases e with
      | mk t a tx tl ch =>
        rw [collect_from_element]
        refine List.mem_append.mpr (Or.inr ?_)
        apply collectChildren_superset ch p 0 i c (by simpa using hc) u
        simpa using hu2

/-- A local unit of a reachable node is collected. -/
theorem localUnits_subset_collect {root : Elem} {p : List Nat} {m : Elem}
    (hm : nodeAt root p = some m) :
    ∀ u ∈ localUnits p m, u ∈ collect_translatable_text root := by
  intro u hu
  have : u ∈ collect_from_element ([] ++ p) m := by
    cases m with
    | mk t a tx tl ch =>
      rw [collect_from_element]
      exact List.mem_append.mpr (Or.inl (by simpa using hu))
  exact collect_from_nodeAt p root m [] hm u this

/-! ### Lemmas: the translator adapter -/

theorem chunkBatches_nil (B : Nat) (hB : 0 < B) : chunkBatches B hB [] = [] := by
  rw [chunkBatches]
  rw [show ((List.nil (α := String)).length + B - 1) / B = 0 from by
    simp only [List.length_nil]
    exact Nat.div_eq_of_lt (by omega)]
  rfl

theorem chunkBatches_cons (B : Nat) (hB : 0 < B) (t : String) (ts : List String) :
    chunkBatches B hB (t :: ts) =
      (t :: ts).take B :: chunkBatches B hB ((t :: ts).drop B) := by
  rw [chunkBatches, chunkBatches]
  have hcount : ((t :: ts).length + B - 1) / B =
      (((t :: ts).drop B).length + B - 1) / B + 1 := by
    simp only [List.length_drop, List.length_cons]
    rw [show ts.length + 1 + B - 1 = ts.length + B from by omega,
      Nat.add_div_right _ hB]
    by_cases hNB : B ≤ ts.length + 1
    · rw [show ts.length + 1 - B + B - 1 = ts.length from by omega]
    · rw [show ts.length + 1 - B + B - 1 = B - 1 from by omega,
        Nat.div_eq_of_lt (by omega), Nat.div_eq_of_lt (by omega)]
  rw [hcount]
  rfl

theorem chunkBatches_flatten_aux (B : Nat) (hB : 0 < B) :
    ∀ (n : Nat) (texts : List String), texts.length ≤ n →
      (chunkBatches B hB texts).flatten = texts := by
  intro n
  induction n with
  | zero =>
    intro texts h
    have : texts = [] := List.length_eq_zero.mp (by omega)
    simp [this, chunkBatches_nil]
  | succ n ih =>
    intro texts h
    cases texts with
    | nil => simp [chunkBatches_nil]
    | cons t ts =>
      simp only [List.length_cons] at h
      rw [chunkBatches_cons]
      simp only [List.flatten_cons]
      rw [ih ((t :: ts).drop B) (by
        simp only [List.length_drop, List.length_cons]
        omega)]
      exact List.take_append_drop B (t :: ts)

theorem chunkBatches_flatten (B : Nat) (hB : 0 < B) (texts : List String) :
    (chunkBatches B hB texts).flatten = texts :=
  chunkBatches_flatten_aux B hB texts.length texts le_rfl

theorem processBatches_length (tr : List String → Option (List String))
    (H : ∀ b r, tr b = some r → r.length = b.length) :
    ∀ bs : List (List String),
      (processBatches tr bs).1.length = (bs.map List.length).sum := by
  intro bs
  induction bs with
  | nil => rfl
  | cons b bs ih =>
    rw [processBatches]
    cases hb : tr b with
    | none => simp [List.length_append, ih]
    | some r => simp [List.length_append, ih, H b r hb]

/-- Under the one-result-per-input assumption the adapter's output has
one entry per input string. -/
theorem batch_translate_length (tr : List String → Option (List String))
    (B : Nat) (hB : 0 < B)
    (H : ∀ b r, tr b = some r → r.length = b.length) (texts : List String) :
    (batch_translate tr B hB texts).1.length = texts.length := by
  rw [batch_translate, processBatches_length tr H]
  rw [← List.length_flatten, chunkBatches_flatten]

theorem processBatches_sleeps (tr : List String → Option (List String)) :
    ∀ bs : List (List String),
      (processBatches tr bs).2 = bs.countP (fun b => (tr b).isSome) := by
  intro bs
  induction bs with
  | nil => rfl
  | cons b bs ih =>
    rw [processBatches]
    cases hb : tr b with
    | none => simp [List.countP_cons, hb, ih]
    | some r => simp [List.countP_cons, hb, ih]

/-- The per-index behavior of `batch_translate`: position `i` is served
by batch `i / B` at offset `i % B`; on a raised batch it is the input
string itself. -/
theorem batch_translate_getElem_aux (tr : List String → Option (List String))
    (B : Nat) (hB : 0 < B)
    (H : ∀ b r, tr b = some r → r.length = b.length) :
    ∀ (n : Nat) (texts : List String), texts.length ≤ n →
      ∀ i, i < texts.length →
        (batch_translate tr B hB texts).1[i]? =
          (match tr ((texts.drop (B * (i / B))).take B) with
           | some r => r[i % B]?
           | none => texts[i]?) := by
  intro n
  induction n with
  | zero =>
    intro texts hn i hi
    omega
  | succ n ih =>
    intro texts hn i hi
    cases texts with
    | nil => simp at hi
    | cons t ts =>
      simp only [List.length_cons] at hn hi
      rw [batch_translate, chunkBatches_cons, processBatches]
      by_cases hiB : i < B
      · have hdiv : i / B = 0 := Nat.div_eq_of_lt hiB
        have hmod : i % B = i := Nat.mod_eq_of_lt hiB
        rw [hdiv, hmod]
        simp only [Nat.mul_zero, List.drop_zero]
        have hlen : i < ((t :: ts).take B).length := by
          simp only [List.length_take, List.length_cons]
          omega
        cases hb : tr ((t :: ts).take B) with
        | some r =>
          have hrl : i < r.length := by
            rw [H _ _ hb]
            exact hlen
          simp only [List.getElem?_append_left hrl]
        | none =>
          simp only [List.getElem?_append_left hlen]
          exact List.getElem?_take_of_lt hiB
      · obtain ⟨j, rfl⟩ : ∃ j, i = j + B := ⟨i - B, by omega⟩
        have hrest : (batch_translate tr B hB ((t :: ts).drop B)).1[j]? =
            (match tr ((((t :: ts).drop B).drop (B * (j / B))).take B) with
             | some r => r[j % B]?
             | none => ((t :: ts).drop B)[j]?) := by
          apply ih ((t :: ts).drop B)
          · simp only [List.length_drop, List.length_cons]
            omega
          · simp only [List.length_drop, List.length_cons]
            omega
        have hb0len : ((t :: ts).take B).length = B := by
          simp only [List.length_take, List.length_cons]
          omega
        have hstep1 : (j + B) / B = j / B + 1 := Nat.add_div_right j hB
        have hstep2 : (j + B) % B = j % B := Nat.add_mod_right j B
        have hdropdrop : ((t :: ts).drop B).drop (B * (j / B)) =
            (t :: ts).drop (B * ((j + B) / B)) := by
          rw [List.drop_drop, hstep1]
          ring_nf
        have hdropidx : ((t :: ts).drop B)[j]? = (t :: ts)[j + B]? := by
          rw [List.getElem?_drop]
          congr 1
          omega
        rw [hstep2, ← hdropdrop, ← hdropidx]
        cases hb : tr ((t :: ts).take B) with
        | some r =>
          have hrl : r.length = B := by rw [H _ _ hb, hb0len]
          rw [List.getElem?_append_right (by omega)]
          rw [hrl, Nat.add_sub_cancel]
          rw [batch_translate] at hrest
          exact hrest
        | none =>
          rw [List.getElem?_append_right (by omega)]
          rw [hb0len, Nat.add_sub_cancel]
          rw [batch_translate] at hrest
          exact hrest

/-- Wrapper for `batch_translate_getElem_aux` without the fuel. -/
theorem batch_translate_getElem (tr : List String → Option (List String))
    (B : Nat) (hB : 0 < B)
    (H : ∀ b r, tr b = some r → r.length = b.length)
    (texts : List String) (i : Nat) (hi : i < texts.length) :
    (batch_translate tr B hB texts).1[i]? =
      (match tr ((texts.drop (B * (i / B))).take B) with
       | some r => r[i % B]?
       | none => texts[i]?) :=
  batch_translate_getElem_aux tr B hB H texts.length texts le_rfl i hi

/-! ### Lemmas: the writer -/

/-- The slot either routes to text/tail content or names an existing
attribute of its node — what `setSlot` needs to preserve the skeleton. -/
def GoodUnit (root : Elem) (u : TUnit) : Prop :=
  u.slot = "text" ∨ u.slot = "tail" ∨
    (∀ m, nodeAt root u.path = some m → u.slot ∈ m.attrib.map Prod.fst)

/-- The unit's path addresses a node and its slot is good. -/
def ValidUnit (root : Elem) (u : TUnit) : Prop :=
  (nodeAt root u.path).isSome = true ∧ GoodUnit root u

theorem GoodUnit_congr {a b : Elem} (h : shapeOf a = shapeOf b) {u : TUnit}
    (hg : GoodUnit a u) : GoodUnit b u := by
  rcases hg with hg | hg | hg
  · exact Or.inl hg
  · exact Or.inr (Or.inl hg)
  · refine Or.inr (Or.inr (fun mb hmb => ?_))
    have hsome : (nodeAt a u.path).isSome = true := by
      rw [nodeAt_isSome_congr u.path a b h, hmb]
      rfl
    rcases Option.isSome_iff_exists.mp hsome with ⟨ma, hma⟩
    rw [← nodeAt_attrKeys_congr u.path a b h ma mb hma hmb]
    exact hg ma hma

theorem ValidUnit_congr {a b : Elem} (h : shapeOf a = shapeOf b) {u : TUnit}
    (hv : ValidUnit a u) : ValidUnit b u :=
  ⟨by rw [← nodeAt_isSome_congr u.path a b h]; exact hv.1,
   GoodUnit_congr h hv.2⟩

/-- Every collected unit is valid for the document it was collected
from. -/
theorem collect_valid (root : Elem) :
    ∀ u ∈ collect_translatable_text root, ValidUnit root u := by
  intro u hu
  rcases mem_collect_elem [] root u hu with ⟨q, m, hpath, hnode, hloc⟩
  simp only [List.nil_append] at hpath hloc
  constructor
  · rw [hpath, hnode]
    rfl
  · rcases (mem_localUnits_iff u q m).mp hloc with ⟨t, _, _, rfl⟩ | ⟨t, _, _, rfl⟩ |
      ⟨n, v, hm, _, rfl⟩
    · exact Or.inl rfl
    · exact Or.inr (Or.inl rfl)
    · refine Or.inr (Or.inr (fun m2 hm2 => ?_))
      have h3 : nodeAt root q = some m2 := hm2
      rw [hnode] at h3
      have : m2 = m := (Option.some.injEq _ _ ▸ h3).symm
      subst this
      exact List.mem_map.mpr ⟨(n, v), hm, rfl⟩

theorem applyTranslations_nil (root : Elem) : applyTranslations root [] = root := rfl

theorem applyTranslations_cons (root : Elem) (u : TUnit) (v : String)
    (rest : List (TUnit × String)) :
    applyTranslations root ((u, v) :: rest) =
      applyTranslations (setSlot root u.path u.slot v) rest := rfl

/-- The writer loop preserves the structural skeleton. -/
theorem shapeOf_applyTranslations :
    ∀ (pairs : List (TUnit × String)) (root : Elem),
      (∀ uv ∈ pairs, GoodUnit root uv.1) →
      shapeOf (applyTranslations root pairs) = shapeOf root := by
  intro pairs
  induction pairs with
  | nil => intro root _; rfl
  | cons uv rest ih =>
    intro root h
    obtain ⟨u, v⟩ := uv
    rw [applyTranslations_cons]
    have hset : shapeOf (setSlot root u.path u.slot v) = shapeOf root :=
      shapeOf_setSlot u.path root u.slot v (h (u, v) (by simp))
    rw [ih (setSlot root u.path u.slot v)
      (fun uv2 hm => GoodUnit_congr hset.symm (h uv2 (List.mem_cons_of_mem _ hm)))]
    exact hset

/-- The writer loop leaves every slot it is not told to write
unchanged. -/
theorem readSlot_applyTranslations_frame :
    ∀ (pairs : List (TUnit × String)) (root : Elem) (q : List Nat) (s : String),
      (∀ uv ∈ pairs, ¬(uv.1.path = q ∧ uv.1.slot = s)) →
      readSlot (applyTranslations root pairs) q s = readSlot root q s := by
  intro pairs
  induction pairs with
  | nil => intro root q s _; rfl
  | cons uv rest ih =>
    intro root q s h
    obtain ⟨u, v⟩ := uv
    rw [applyTranslations_cons]
    rw [ih _ q s (fun uv2 hm => h uv2 (List.mem_cons_of_mem _ hm))]
    exact readSlot_setSlot_frame u.path root q u.slot s v (h (u, v) (by simp))

/-- No step of the writer loop ever changes an attribute literally named
`text` or `tail`. -/
theorem attrAt_applyTranslations_texttail :
    ∀ (pairs : List (TUnit × String)) (root : Elem) (q : List Nat) (n : String),
      n = "text" ∨ n = "tail" →
      attrAt (applyTranslations root pairs) q n = attrAt root q n := by
  intro pairs
  induction pairs with
  | nil => intro root q n _; rfl
  | cons uv rest ih =>
    intro root q n hn
    obtain ⟨u, v⟩ := uv
    rw [applyTranslations_cons]
    rw [ih _ q n hn]
    apply attrAt_setSlot_frame
    by_cases hs : u.slot = n
    · rcases hn with hn | hn
      · exact Or.inl (hs.trans hn)
      · exact Or.inr (Or.inl (hs.trans hn))
    · exact Or.inr (Or.inr (fun hc => hs hc.symm))

/-- The writer loop is positional: after it runs, the slot of the `k`-th
unit holds the `k`-th translated string (units' (path, slot) keys assumed
pairwise distinct, and valid for the document). -/
theorem readSlot_applyTranslations_get :
    ∀ (units : List TUnit) (out : List String) (root : Elem),
      out.length = units.length →
      (∀ u ∈ units, ValidUnit root u) →
      (units.map (fun u => (u.path, u.slot))).Nodup →
      ∀ (k : Nat) (u : TUnit), units[k]? = some u →
        readSlot (applyTranslations root (units.zip out)) u.path u.slot = out[k]? := by
  intro units
  induction units with
  | nil => intro out root _ _ _ k u hk; simp at hk
  | cons u0 us ih =>
    intro out root hlen hvalid hnodup k u hk
    cases out with
    | nil => simp at hlen
    | cons v vs =>
      rw [List.zip_cons_cons, applyTranslations_cons]
      have hshape : shapeOf (setSlot root u0.path u0.slot v) = shapeOf root :=
        shapeOf_setSlot u0.path root u0.slot v ((hvalid u0 (by simp)).2)
      have hnodup2 : ((u0.path, u0.slot) ∉ us.map (fun u => (u.path, u.slot))) ∧
          (us.map (fun u => (u.path, u.slot))).Nodup := by
        rw [List.map_cons] at hnodup
        exact List.nodup_cons.mp hnodup
      obtain ⟨hhead, htail⟩ := hnodup2
      cases k with
      | zero =>
        simp only [List.getElem?_cons_zero, Option.some.injEq] at hk
        subst hk
        have hside : ∀ uv2 ∈ us.zip vs,
            ¬(uv2.1.path = u0.path ∧ uv2.1.slot = u0.slot) := by
          intro uv2 hm hc
          rcases List.of_mem_zip hm with ⟨hm1, _⟩
          exact hhead (List.mem_map.mpr ⟨uv2.1, hm1, by simp [hc.1, hc.2]⟩)
        rw [List.getElem?_cons_zero]
        rw [readSlot_applyTranslations_frame (us.zip vs) _ u0.path u0.slot hside]
        exact readSlot_setSlot_hit u0.path root u0.slot v (hvalid u0 (by simp)).1
      | succ k =>
        simp only [List.getElem?_cons_succ] at hk ⊢
        apply ih vs (setSlot root u0.path u0.slot v)
          (by simpa using hlen)
          (fun u2 hm => ValidUnit_congr hshape.symm
            (hvalid u2 (List.mem_cons_of_mem _ hm)))
          htail k u hk

/-! ### Condition characterizations -/

theorem textCond_iff (t : String) :
    textCond t = true ↔ (pyStrip t ≠ "" ∧ hasChar t '%' = false) := by
  simp only [textCond, Bool.and_eq_true, bne_iff_ne, ne_eq, Bool.not_eq_true']
  constructor
  · rintro ⟨⟨_, h2⟩, h3⟩
    exact ⟨h2, h3⟩
  · rintro ⟨h2, h3⟩
    exact ⟨⟨ne_empty_of_pyStrip_ne_empty h2, h2⟩, h3⟩

theorem contains_eq_false_iff (l : List String) (n : String) :
    l.contains n = false ↔ n ∉ l := by
  constructor
  · intro h hm
    have h2 : l.contains n = true := List.elem_iff.mpr hm
    rw [h] at h2
    cases h2
  · intro h
    cases hc : l.contains n with
    | false => rfl
    | true => exact absurd (List.elem_iff.mp hc) h

theorem attrCond_iff (n v : String) :
    attrCond n v = true ↔
      (pyStrip v ≠ "" ∧ hasChar v '%' = false ∧ n ∉ excludedAttrs) := by
  simp only [attrCond, Bool.and_eq_true, bne_iff_ne, ne_eq, Bool.not_eq_true']
  constructor
  · rintro ⟨⟨⟨_, h2⟩, h3⟩, h4⟩
    exact ⟨h2, h4, (contains_eq_false_iff _ _).mp h3⟩
  · rintro ⟨h2, h4, h3⟩
    exact ⟨⟨⟨ne_empty_of_pyStrip_ne_empty h2, h2⟩,
      (contains_eq_false_iff _ _).mpr h3⟩, h4⟩

/-- Two raw candidate strings with the same queued form pass or fail the
emptiness/percent filter together. -/
theorem cond_transfer {x y : String}
    (hval : clean_text (pyStrip x) = clean_text (pyStrip y))
    (h2 : pyStrip y ≠ "") (h3 : hasChar y '%' = false) :
    pyStrip x ≠ "" ∧ hasChar x '%' = false := by
  constructor
  · intro hx
    apply h2
    have hempty : clean_text (pyStrip y) = "" := by
      rw [← hval, hx]
      rfl
    exact (clean_text_eq_empty_iff _).mp hempty
  · cases hc : hasChar x '%' with
    | false => rfl
    | true =>
      exfalso
      have hx : '%' ∈ x.data := pct_mem_of_hasChar hc
      have h5 : '%' ∈ (clean_text (pyStrip x)).data :=
        (pct_mem_clean_iff _).mpr ((pct_mem_strip_iff x).mpr hx)
      rw [hval] at h5
      have h6 : '%' ∈ y.data :=
        (pct_mem_strip_iff y).mp ((pct_mem_clean_iff _).mp h5)
      rw [hasChar_of_pct_mem h6] at h3
      cases h3

/-! ### Claim C1 -/

/-- C1: assuming the external translator returns exactly one translated
string per input string of a batch, `batch_translate` returns a list of
the same length as its input, and the string at every index `i` comes
from the batch `i / B` serving that index: the translated string at the
batch-relative offset `i % B` on success, the input string at `i` itself
on a raised batch. Consequently the collected `TranslationUnit` list and
the translated list handed to the writer have equal lengths. -/
theorem c1_lockstep (tr : List String → Option (List String)) (B : Nat)
    (hB : 0 < B) (H : ∀ b r, tr b = some r → r.length = b.length)
    (texts : List String) :
    (batch_translate tr B hB texts).1.length = texts.length ∧
    (∀ i, i < texts.length →
      (batch_translate tr B hB texts).1[i]? =
        (match tr ((texts.drop (B * (i / B))).take B) with
         | some r => r[i % B]?
         | none => texts[i]?)) ∧
    (∀ root : Elem,
      (batch_translate tr B hB ((collect_translatable_text root).map TUnit.src)).1.length =
        (collect_translatable_text root).length) := by
  refine ⟨batch_translate_length tr B hB H texts,
    fun i hi => batch_translate_getElem tr B hB H texts i hi,
    fun root => ?_⟩
  rw [batch_translate_length tr B hB H, List.length_map]

/-- Witness for C1 at a concrete translator, batch size 2 and three
strings. -/
theorem c1_lockstep_witness :
    (batch_translate (fun b => some (b.map (fun s => String.append s "!")))
      2 (by decide) ["x", "y", "z"]).1.length = 3 := by
  have h := c1_lockstep (fun b => some (b.map (fun s => String.append s "!")))
    2 (by decide)
    (by
      intro b r hr
      rw [Option.some.injEq] at hr
      rw [← hr, List.length_map])
    ["x", "y", "z"]
  rw [h.1]
  rfl

/-! ### Claim C6 (corrected) -/

/-- C6 as stated is false: the sleep sits inside the `try`, after the
translation call, so a batch whose call raises performs no sleep at all.
With a single batch that raises, zero sleeps happen although one batch
was processed. -/
theorem c6_counterexample :
    (batch_translate (fun _ => none) 1 Nat.one_pos ["a"]).2 = 0 ∧
    (chunkBatches 1 Nat.one_pos ["a"]).length = 1 := by
  constructor
  · rw [batch_translate, chunkBatches_cons]
    simp [chunkBatches_nil, processBatches]
  · rw [chunkBatches_cons]
    simp [chunkBatches_nil]

/-- C6 amended: the fixed 1-second pause is issued exactly after each
successful batch — including the final one — and never after a batch
whose translation call raised. -/
theorem c6_amended (tr : List String → Option (List String)) (B : Nat)
    (hB : 0 < B) (texts : List String) :
    (batch_translate tr B hB texts).2 =
      (chunkBatches B hB texts).countP (fun b => (tr b).isSome) :=
  processBatches_sleeps tr (chunkBatches B hB texts)

/-- Witness for the amended C6: two batches, the first succeeds (one
sleep), the second raises (no sleep). -/
theorem c6_amended_witness :
    (batch_translate (fun b => if b = ["a"] then some ["A"] else none)
      1 Nat.one_pos ["a", "b"]).2 = 1 := by
  rw [c6_amended]
  rw [chunkBatches_cons]
  simp [chunkBatches_cons, chunkBatches_nil, List.countP_cons]

/-! ### Claim C2 -/

/-- C2: a batch whose translation call raises falls back to its own
input strings at exactly its own positions, the following batches are
still processed, and in the final document the `k`-th unit's slot holds
the `k`-th adapter output: its own (untranslated) source string when its
batch raised, the batch's translation at the unit's offset otherwise.
Stated under the assumptions that the translator returns one output per
input on success and that the collected `(path, slot)` keys are pairwise
distinct (they name distinct document fields). -/
theorem c2_batch_fallback (tr : List String → Option (List String)) (B : Nat)
    (hB : 0 < B) (H : ∀ b r, tr b = some r → r.length = b.length)
    (root : Elem)
    (Hnodup : ((collect_translatable_text root).map (fun u => (u.path, u.slot))).Nodup) :
    (∀ (texts : List String) (i : Nat), i < texts.length →
      tr ((texts.drop (B * (i / B))).take B) = none →
      (batch_translate tr B hB texts).1[i]? = texts[i]?) ∧
    (∀ (units : List TUnit) (texts res : List String) (final : Elem),
      units = collect_translatable_text root →
      texts = units.map TUnit.src →
      res = (batch_translate tr B hB texts).1 →
      final = applyTranslations root (units.zip res) →
      ∀ (k : Nat) (u : TUnit), units[k]? = some u →
        readSlot final u.path u.slot = res[k]? ∧
        (tr ((texts.drop (B * (k / B))).take B) = none →
          res[k]? = some u.src) ∧
        (∀ r, tr ((texts.drop (B * (k / B))).take B) = some r →
          res[k]? = r[k % B]?)) ∧
    (∀ (input : String) (out? : Option String) (now : String),
      (collect_translatable_text root).isEmpty = false →
      (translate_xml_to_urdu tr B hB input out? now root).written =
        some (applyTranslations root ((collect_translatable_text root).zip
          (batch_translate tr B hB
            ((collect_translatable_text root).map TUnit.src)).1))) := by
  refine ⟨?_, ?_, ?_⟩
  · intro texts i hi hnone
    have h := batch_translate_getElem tr B hB H texts i hi
    rw [hnone] at h
    exact h
  · intro units texts res final h1 h2 h3 h4 k u hk
    subst h1; subst h2; subst h3; subst h4
    have hklen : k < (collect_translatable_text root).length := by
      by_contra hc
      rw [List.getElem?_eq_none (by omega)] at hk
      cases hk
    have htlen : k < ((collect_translatable_text root).map TUnit.src).length := by
      rw [List.length_map]
      exact hklen
    have hreslen :
        (batch_translate tr B hB
          ((collect_translatable_text root).map TUnit.src)).1.length =
          (collect_translatable_text root).length := by
      rw [batch_translate_length tr B hB H, List.length_map]
    refine ⟨?_, ?_, ?_⟩
    · exact readSlot_applyTranslations_get (collect_translatable_text root) _
        root hreslen (collect_valid root) Hnodup k u hk
    · intro hnone
      have h := batch_translate_getElem tr B hB H _ k htlen
      rw [hnone] at h
      rw [h, List.getElem?_map, hk]
      rfl
    · intro r hr
      have h := batch_translate_getElem tr B hB H _ k htlen
      rw [hr] at h
      exact h
  · intro input out? now hne
    rw [translate_xml_to_urdu]
    simp only [hne]
    rfl

def rootW : Elem :=
  .mk "r" [] none none
    [.mk "a" [] (some "One") none [], .mk "b" [] (some "Two") none []]

def trW : List String → Option (List String) :=
  fun b => if b = ["One"] then some ["1"] else none

/-- Witness for C2: two units, batch size 1; the second batch raises and
the final document carries that unit's original string. -/
theorem c2_batch_fallback_witness :
    readSlot (applyTranslations rootW ((collect_translatable_text rootW).zip
      (batch_translate trW 1 Nat.one_pos
        ((collect_translatable_text rootW).map TUnit.src)).1)) [1] "text" =
      some "Two" := by
  have HW : ∀ b r, trW b = some r → r.length = b.length := by
    intro b r h
    by_cases hb : b = ["One"]
    · rw [trW, if_pos hb, Option.some.injEq] at h
      rw [← h, hb]
      rfl
    · rw [trW, if_neg hb] at h
      cases h
  have h := (c2_batch_fallback trW 1 Nat.one_pos HW rootW (by decide)).2.1
    (collect_translatable_text rootW) _ _ _ rfl rfl rfl rfl
    1 ⟨"Two", [1], "text"⟩ (by decide)
  exact h.1.trans (h.2.1 (by decide))

/-! ### Claim C3 -/

/-- C3: whatever document the pipeline writes has the same tag names,
the same attribute names in the same order, the same child ordering and
the same node count as the input, and every text/tail/attribute slot not
named by any collected unit is unchanged. -/
theorem c3_structure_preserved (tr : List String → Option (List String))
    (B : Nat) (hB : 0 < B) (input : String) (out? : Option String)
    (now : String) (root d : Elem)
    (hw : (translate_xml_to_urdu tr B hB input out? now root).written = some d) :
    shapeOf d = shapeOf root ∧ nodeCount d = nodeCount root ∧
    (∀ (q : List Nat) (s : String),
      (∀ u ∈ collect_translatable_text root, ¬(u.path = q ∧ u.slot = s)) →
      readSlot d q s = readSlot root q s) := by
  rw [translate_xml_to_urdu] at hw
  by_cases hE : (collect_translatable_text root).isEmpty
  · simp only [hE, if_true] at hw
    cases hw
  · simp only [hE, if_false, Bool.false_eq_true] at hw
    have hd : applyTranslations root ((collect_translatable_text root).zip
        (batch_translate tr B hB
          ((collect_translatable_text root).map TUnit.src)).1) = d := by
      have := hw
      simpa using this
    subst hd
    have hgood : ∀ uv ∈ (collect_translatable_text root).zip
        (batch_translate tr B hB
          ((collect_translatable_text root).map TUnit.src)).1,
        GoodUnit root uv.1 :=
      fun uv hm => (collect_valid root uv.1 (List.of_mem_zip hm).1).2
    have hshape := shapeOf_applyTranslations _ root hgood
    refine ⟨hshape, ?_, ?_⟩
    · rw [nodeCount_eq_shapeCount, nodeCount_eq_shapeCount, hshape]
    · intro q s h
      exact readSlot_applyTranslations_frame _ root q s
        (fun uv hm => h uv.1 (List.of_mem_zip hm).1)

/-- Witness for C3 on a concrete two-child document. -/
theorem c3_structure_preserved_witness :
    nodeCount (Elem.mk "r" [] none none
      [Elem.mk "a" [] (some "1") none [], Elem.mk "b" [] (some "Two") none []]) =
      nodeCount rootW := by
  have h := c3_structure_preserved trW 1 Nat.one_pos "strings.xml" none "TS"
    rootW
    (Elem.mk "r" [] none none
      [Elem.mk "a" [] (some "1") none [], Elem.mk "b" [] (some "Two") none []])
    (by rfl)
  exact h.2.1

/-! ### Claim C4 -/

/-- A collected unit whose path addresses node `e` is one of `e`'s own
local units. -/
theorem mem_collect_localize {root : Elem} {u : TUnit}
    (hu : u ∈ collect_translatable_text root) {e : Elem}
    (he : nodeAt root u.path = some e) : u ∈ localUnits u.path e := by
  rcases mem_collect_elem [] root u hu with ⟨q, m, hpath, hnode, hloc⟩
  simp only [List.nil_append] at hpath hloc
  rw [hpath] at he ⊢
  rw [hnode, Option.some.injEq] at he
  rw [← he]
  exact hloc

/-- C4: a candidate becomes a unit exactly when it is nonempty after
stripping and free of `%`, and an attribute additionally only when its
name is not `name`, `id` or `identifier`. -/
theorem c4_collector_filter (root : Elem) (p : List Nat) (e : Elem)
    (he : nodeAt root p = some e) :
    (∀ t, e.text = some t →
      ((⟨clean_text (pyStrip t), p, "text"⟩ : TUnit) ∈
          collect_translatable_text root ↔
        (pyStrip t ≠ "" ∧ hasChar t '%' = false))) ∧
    (∀ t, e.tail = some t →
      ((⟨clean_text (pyStrip t), p, "tail"⟩ : TUnit) ∈
          collect_translatable_text root ↔
        (pyStrip t ≠ "" ∧ hasChar t '%' = false))) ∧
    (∀ n v, (n, v) ∈ e.attrib →
      ((⟨clean_text (pyStrip v), p, n⟩ : TUnit) ∈
          collect_translatable_text root ↔
        (pyStrip v ≠ "" ∧ hasChar v '%' = false ∧ n ∉ excludedAttrs))) := by
  refine ⟨?_, ?_, ?_⟩
  · intro t ht
    constructor
    · intro hu
      have hloc := mem_collect_localize hu he
      rcases (mem_localUnits_iff _ p e).mp hloc with ⟨t0, ht0, hc0, hequ⟩ |
        ⟨t0, ht0, hc0, hequ⟩ | ⟨n0, v0, hm0, hc0, hequ⟩
      · rw [ht, Option.some.injEq] at ht0
        rw [ht0]
        exact (textCond_iff t0).mp hc0
      · rw [TUnit.mk.injEq] at hequ
        exact absurd hequ.2.2 (by decide)
      · rw [TUnit.mk.injEq] at hequ
        rcases (attrCond_iff n0 v0).mp hc0 with ⟨h2, h3, -⟩
        exact cond_transfer hequ.1 h2 h3
    · rintro ⟨h2, h3⟩
      apply localUnits_subset_collect he
      exact (mem_localUnits_iff _ p e).mpr
        (Or.inl ⟨t, ht, (textCond_iff t).mpr ⟨h2, h3⟩, rfl⟩)
  · intro t ht
    constructor
    · intro hu
      have hloc := mem_collect_localize hu he
      rcases (mem_localUnits_iff _ p e).mp hloc with ⟨t0, ht0, hc0, hequ⟩ |
        ⟨t0, ht0, hc0, hequ⟩ | ⟨n0, v0, hm0, hc0, hequ⟩
      · rw [TUnit.mk.injEq] at hequ
        exact absurd hequ.2.2 (by decide)
      · rw [ht, Option.some.injEq] at ht0
        rw [ht0]
        exact (textCond_iff t0).mp hc0
      · rw [TUnit.mk.injEq] at hequ
        rcases (attrCond_iff n0 v0).mp hc0 with ⟨h2, h3, -⟩
        exact cond_transfer hequ.1 h2 h3
    · rintro ⟨h2, h3⟩
      apply localUnits_subset_collect he
      exact (mem_localUnits_iff _ p e).mpr
        (Or.inr (Or.inl ⟨t, ht, (textCond_iff t).mpr ⟨h2, h3⟩, rfl⟩))
  · intro n v hnv
    constructor
    · intro hu
      have hloc := mem_collect_localize hu he
      rcases (mem_localUnits_iff _ p e).mp hloc with ⟨t0, ht0, hc0, hequ⟩ |
        ⟨t0, ht0, hc0, hequ⟩ | ⟨n0, v0, hm0, hc0, hequ⟩
      · rw [TUnit.mk.injEq] at hequ
        rcases (textCond_iff t0).mp hc0 with ⟨h2, h3⟩
        rcases cond_transfer hequ.1 h2 h3 with ⟨g2, g3⟩
        refine ⟨g2, g3, ?_⟩
        rw [hequ.2.2]
        decide
      · rw [TUnit.mk.injEq] at hequ
        rcases (textCond_iff t0).mp hc0 with ⟨h2, h3⟩
        rcases cond_transfer hequ.1 h2 h3 with ⟨g2, g3⟩
        refine ⟨g2, g3, ?_⟩
        rw [hequ.2.2]
        decide
      · rw [TUnit.mk.injEq] at hequ
        rcases (attrCond_iff n0 v0).mp hc0 with ⟨h2, h3, h4⟩
        rcases cond_transfer hequ.1 h2 h3 with ⟨g2, g3⟩
        refine ⟨g2, g3, ?_⟩
        rw [hequ.2.2]
        exact h4
    · rintro ⟨h2, h3, h4⟩
      apply localUnits_subset_collect he
      exact (mem_localUnits_iff _ p e).mpr
        (Or.inr (Or.inr ⟨n, v, hnv, (attrCond_iff n v).mpr ⟨h2, h3, h4⟩, rfl⟩))

def root4 : Elem :=
  .mk "item" [("id", "Hello World"), ("label", "Hi")] (some "%d items") none []

/-- Witness for C4: text `"%d items"` yields no text unit, attribute
`id` is never collected, attribute `label` is. -/
theorem c4_collector_filter_witness :
    ((⟨"%d items", [], "text"⟩ : TUnit) ∉ collect_translatable_text root4) ∧
    ((⟨"Hi", [], "label"⟩ : TUnit) ∈ collect_translatable_text root4) ∧
    ((⟨"Hello World", [], "id"⟩ : TUnit) ∉ collect_translatable_text root4) := by
  have h := c4_collector_filter root4 [] root4 rfl
  refine ⟨?_, ?_, ?_⟩
  · intro hm
    exact absurd ((h.1 "%d items" rfl).mp hm).2 (by decide)
  · exact (h.2.2 "label" "Hi" (by decide)).mpr ⟨by decide, by decide, by decide⟩
  · intro hm
    exact absurd ((h.2.2 "id" "Hello World" (by decide)).mp hm).2.2 (by decide)

/-! ### Claim C5 -/

/-- C5: every queued string is the whitespace-stripped raw candidate
with each `…` expanded to `...`; in particular `"Loading…"` is queued as
`"Loading..."`. -/
theorem c5_queued_normalization (root : Elem) :
    (∀ u ∈ collect_translatable_text root,
      ∃ (m : Elem) (raw : String), nodeAt root u.path = some m ∧
        (m.text = some raw ∨ m.tail = some raw ∨ ∃ n, (n, raw) ∈ m.attrib) ∧
        u.src = clean_text (pyStrip raw)) ∧
    clean_text (pyStrip "Loading…") = "Loading..." := by
  constructor
  · intro u hu
    rcases mem_collect_elem [] root u hu with ⟨q, m, hpath, hnode, hloc⟩
    simp only [List.nil_append] at hpath hloc
    rcases (mem_localUnits_iff u q m).mp hloc with ⟨t, ht, -, hequ⟩ |
      ⟨t, ht, -, hequ⟩ | ⟨n, v, hm, -, hequ⟩
    · exact ⟨m, t, by rw [hpath]; exact hnode, Or.inl ht, by rw [hequ]⟩
    · exact ⟨m, t, by rw [hpath]; exact hnode, Or.inr (Or.inl ht), by rw [hequ]⟩
    · exact ⟨m, v, by rw [hpath]; exact hnode, Or.inr (Or.inr ⟨n, hm⟩), by rw [hequ]⟩
  · rfl

def root5 : Elem := .mk "r" [] (some "Loading…") none []

/-- Witness for C5 on the document whose text is `"Loading…"`. -/
theorem c5_queued_normalization_witness :
    (∃ (m : Elem) (raw : String),
      nodeAt root5 (TUnit.mk "Loading..." [] "text").path = some m ∧
      (m.text = some raw ∨ m.tail = some raw ∨ ∃ n, (n, raw) ∈ m.attrib) ∧
      (TUnit.mk "Loading..." [] "text").src = clean_text (pyStrip raw)) ∧
    clean_text (pyStrip "Loading…") = "Loading..." :=
  ⟨(c5_queued_normalization root5).1 ⟨"Loading...", [], "text"⟩ (by decide),
   (c5_queued_normalization root5).2⟩

/-! ### Claim C7 (corrected) -/

def root7 : Elem :=
  .mk "resources" [] none none [.mk "group" [("id", "main")] none none []]

/-- C7 as stated is false: on an empty collection the run returns the
output path and reports zero texts, but it returns before `tree.write`,
so no output file is emitted at all — in particular not a copy of the
input. -/
theorem c7_counterexample :
    (translate_xml_to_urdu (fun b => some b) 100 (by decide) "strings.xml"
      none "20240101_000000" root7).written = none ∧
    ¬((translate_xml_to_urdu (fun b => some b) 100 (by decide) "strings.xml"
      none "20240101_000000" root7).written = some root7) ∧
    (translate_xml_to_urdu (fun b => some b) 100 (by decide) "strings.xml"
      none "20240101_000000" root7).reportedNoText = true := by
  refine ⟨rfl, fun h => ?_, rfl⟩
  exact Option.noConfusion h

/-- C7 amended: when the collector finds nothing, the pipeline
short-circuits without error, prints the zero-texts report and returns
the (synthesized or given) output path — without writing any file. -/
theorem c7_empty_no_output (tr : List String → Option (List String))
    (B : Nat) (hB : 0 < B) (input : String) (out? : Option String)
    (now : String) (root : Elem)
    (h : collect_translatable_text root = []) :
    (translate_xml_to_urdu tr B hB input out? now root).written = none ∧
    (translate_xml_to_urdu tr B hB input out? now root).reportedNoText = true ∧
    (translate_xml_to_urdu tr B hB input out? now root).outputFile =
      out?.getD (defaultOutputFile input now) := by
  rw [translate_xml_to_urdu]
  simp only [h, List.isEmpty_nil, if_true]
  exact ⟨trivial, trivial, trivial⟩

/-- Witness for the amended C7 at a document with no translatable
candidates. -/
theorem c7_empty_no_output_witness :
    (translate_xml_to_urdu (fun b => some b) 100 (by decide) "strings.xml"
      none "TS" root7).written = none :=
  (c7_empty_no_output (fun b => some b) 100 (by decide) "strings.xml"
    none "TS" root7 (by decide)).1

/-! ### Claim C8 (corrected) -/

/-- `YYYYMMDD_HHMMSS`: 15 characters, 8 digits, `_`, 6 digits. -/
def isTimestamp (s : String) : Bool :=
  s.data.length == 15 && (s.data.take 8).all Char.isDigit &&
  (s.data.drop 8).take 1 == ['_'] && (s.data.drop 9).all Char.isDigit

/-- `path` matches `<stem>_<YYYYMMDD_HHMMSS>.xml`. -/
def matchesDefaultPattern (stem path : String) : Bool :=
  path.data.length == stem.data.length + 20 &&
  path.data.take (stem.data.length + 1) == stem.data ++ ['_'] &&
  isTimestamp ⟨(path.data.drop (stem.data.length + 1)).take 15⟩ &&
  path.data.drop (stem.data.length + 16) == ['.', 'x', 'm', 'l']

theorem matchesDefaultPattern_build (stem ts : String)
    (h : isTimestamp ts = true) :
    matchesDefaultPattern stem (stem ++ "_" ++ ts ++ ".xml") = true := by
  have hl : ts.data.length = 15 := by
    simp only [isTimestamp, Bool.and_eq_true, beq_iff_eq] at h
    exact h.1.1.1
  have hdata : (stem ++ "_" ++ ts ++ ".xml").data =
      stem.data ++ '_' :: (ts.data ++ ['.', 'x', 'm', 'l']) := by
    rw [String.data_append, String.data_append, String.data_append]
    rw [show ("_" : String).data = ['_'] from rfl,
      show (".xml" : String).data = ['.', 'x', 'm', 'l'] from rfl]
    simp [List.append_assoc]
  rw [matchesDefaultPattern, hdata]
  simp only [Bool.and_eq_true, beq_iff_eq]
  refine ⟨⟨⟨?_, ?_⟩, ?_⟩, ?_⟩
  · simp [List.length_append, hl]
  · rw [show stem.data ++ '_' :: (ts.data ++ ['.', 'x', 'm', 'l']) =
        stem.data ++ ['_'] ++ (ts.data ++ ['.', 'x', 'm', 'l']) from by simp]
    rw [show stem.data.length + 1 = (stem.data ++ ['_']).length + 0 from by simp]
    rw [List.take_append 0]
    simp
  · rw [show stem.data ++ '_' :: (ts.data ++ ['.', 'x', 'm', 'l']) =
        stem.data ++ ['_'] ++ (ts.data ++ ['.', 'x', 'm', 'l']) from by simp]
    rw [show stem.data.length + 1 = (stem.data ++ ['_']).length + 0 from by simp]
    rw [List.drop_append 0, List.drop_zero]
    rw [show (15 : Nat) = ts.data.length from hl.symm, List.take_left]
    rw [show (⟨ts.data⟩ : String) = ts from rfl]
    exact h
  · rw [show stem.data ++ '_' :: (ts.data ++ ['.', 'x', 'm', 'l']) =
        (stem.data ++ '_' :: ts.data) ++ ['.', 'x', 'm', 'l'] from by simp]
    rw [show stem.data.length + 16 = (stem.data ++ '_' :: ts.data).length + 0 from by
      simp [List.length_append, hl]]
    rw [List.drop_append 0]
    rfl

/-- C8 as stated is false: the source appends `_urdu_`, not the language
tag `ur`, so for `strings.xml` the produced path is
`strings_urdu_YYYYMMDD_HHMMSS.xml` and does not match the claimed
pattern `strings_ur_YYYYMMDD_HHMMSS.xml`. -/
theorem c8_counterexample :
    defaultOutputFile "strings.xml" "20240101_000000" =
      "strings_urdu_20240101_000000.xml" ∧
    matchesDefaultPattern "strings_ur"
      (defaultOutputFile "strings.xml" "20240101_000000") = false ∧
    isTimestamp "20240101_000000" = true := by
  refine ⟨by decide, by decide, by decide⟩

/-- C8 amended: with no explicit output path the synthesized path is the
input's splitext root, the suffix `_urdu_` (the language name rather
than the tag `ur`) and the timestamp, with the `.xml` extension; for
`strings.xml` it matches `strings_urdu_YYYYMMDD_HHMMSS.xml`. -/
theorem c8_default_output (now : String) (input : String) :
    defaultOutputFile input now =
      splitextRoot input ++ "_urdu_" ++ now ++ ".xml" ∧
    defaultOutputFile "strings.xml" now =
      "strings" ++ "_urdu_" ++ now ++ ".xml" ∧
    (isTimestamp now = true →
      matchesDefaultPattern "strings_urdu"
        (defaultOutputFile "strings.xml" now) = true) := by
  refine ⟨rfl, ?_, ?_⟩
  · rw [defaultOutputFile, show splitextRoot "strings.xml" = "strings" from by decide]
  · intro h
    have hb := matchesDefaultPattern_build "strings_urdu" now h
    rw [defaultOutputFile, show splitextRoot "strings.xml" = "strings" from by decide]
    rw [show ("strings" : String) ++ "_urdu_" = "strings_urdu" ++ "_" from by decide]
    exact hb

/-- Witness for the amended C8 at a concrete timestamp. -/
theorem c8_default_output_witness :
    matchesDefaultPattern "strings_urdu"
      (defaultOutputFile "strings.xml" "20240101_000000") = true :=
  (c8_default_output "20240101_000000" "strings.xml").2.2 (by decide)

/-! ### Claim C9 -/

/-- C9: the CLI exits with status 1, after its message and before any
processing, when no input argument is given, when the input path does
not exist, and when the lower-cased input path does not end in `.xml`. -/
theorem c9_cli (argv : List String) (fe : String → Bool) :
    (argv.length < 2 → main argv fe = .usageExit1) ∧
    (∀ prog input rest, argv = prog :: input :: rest →
      (fe input = false → main argv fe = .missingFileExit1) ∧
      (fe input = true → strEndsWith (pyLower input) ".xml" = false →
        main argv fe = .notXmlExit1)) ∧
    (∀ o : CliOutcome,
      (o = .usageExit1 ∨ o = .missingFileExit1 ∨ o = .notXmlExit1) →
      o.exitCode = some 1 ∧ o.attemptsProcessing = false) := by
  refine ⟨?_, ?_, ?_⟩
  · intro h
    match argv with
    | [] => rfl
    | [a] => rfl
    | a :: b :: r => simp at h; omega
  · rintro prog input rest rfl
    constructor
    · intro hfe
      simp [main, hfe]
    · intro hfe hend
      simp [main, hfe, hend]
  · intro o ho
    rcases ho with rfl | rfl | rfl <;> exact ⟨rfl, rfl⟩

/-- Witness for C9: the three error cases at concrete argument lists. -/
theorem c9_cli_witness :
    main ["prog"] (fun _ => true) = .usageExit1 ∧
    main ["prog", "a.xml"] (fun _ => false) = .missingFileExit1 ∧
    main ["prog", "notes.txt"] (fun _ => true) = .notXmlExit1 := by
  refine ⟨(c9_cli ["prog"] (fun _ => true)).1 (by decide),
    ((c9_cli ["prog", "a.xml"] (fun _ => false)).2.1 "prog" "a.xml" [] rfl).1 rfl,
    ((c9_cli ["prog", "notes.txt"] (fun _ => true)).2.1 "prog" "notes.txt" []
      rfl).2 rfl (by decide)⟩

/-! ### Claim C10 -/

/-- C10: a collected attribute literally named `text` (or `tail`) gets
the same slot sentinel as element text (tail) content, the writer's
branch for that sentinel assigns the node's text (tail) field and never
an attribute, and consequently attributes named `text`/`tail` are
unchanged at every node of the written document. -/
theorem c10_attr_text_tail (tr : List String → Option (List String))
    (B : Nat) (hB : 0 < B) (input : String) (out? : Option String)
    (now : String) (root d : Elem)
    (hw : (translate_xml_to_urdu tr B hB input out? now root).written = some d) :
    (∀ q : List Nat, attrAt d q "text" = attrAt root q "text" ∧
      attrAt d q "tail" = attrAt root q "tail") ∧
    (∀ (p : List Nat) (m : Elem) (v : String), nodeAt root p = some m →
      ("text", v) ∈ m.attrib → attrCond "text" v = true →
      (⟨clean_text (pyStrip v), p, "text"⟩ : TUnit) ∈
        collect_translatable_text root) ∧
    (∀ (e0 : Elem) (v : String),
      (setSlot e0 [] "text" v).text = some v ∧
      (setSlot e0 [] "text" v).attrib = e0.attrib ∧
      (setSlot e0 [] "tail" v).tail = some v ∧
      (setSlot e0 [] "tail" v).attrib = e0.attrib) := by
  refine ⟨?_, ?_, ?_⟩
  · rw [translate_xml_to_urdu] at hw
    by_cases hE : (collect_translatable_text root).isEmpty
    · simp only [hE, if_true] at hw
      cases hw
    · simp only [hE, if_false, Bool.false_eq_true] at hw
      have hd : applyTranslations root ((collect_translatable_text root).zip
          (batch_translate tr B hB
            ((collect_translatable_text root).map TUnit.src)).1) = d := by
        simpa using hw
      subst hd
      intro q
      exact ⟨attrAt_applyTranslations_texttail _ root q "text" (Or.inl rfl),
        attrAt_applyTranslations_texttail _ root q "tail" (Or.inr rfl)⟩
  · intro p m v hm hmem hcond
    apply localUnits_subset_collect hm
    exact (mem_localUnits_iff _ p m).mpr
      (Or.inr (Or.inr ⟨"text", v, hmem, hcond, rfl⟩))
  · intro e0 v
    cases e0 with
    | mk t a tx tl ch => exact ⟨rfl, rfl, rfl, rfl⟩

def root10 : Elem := .mk "item" [("text", "Hello")] none none []

def tr10 : List String → Option (List String) :=
  fun b => some (b.map (fun _ => "X"))

/-- Witness for C10: the pipeline on a node whose only candidate is an
attribute named `text` leaves that attribute unchanged (the translation
went into the node's text content instead). -/
theorem c10_attr_text_tail_witness :
    attrAt (Elem.mk "item" [("text", "Hello")] (some "X") none []) [] "text" =
      attrAt root10 [] "text" := by
  have h := c10_attr_text_tail tr10 100 (by decide) "strings.xml" none "TS"
    root10 (Elem.mk "item" [("text", "Hello")] (some "X") none []) (by rfl)
  exact (h.1 []).1

end UrduXlate
